import Mathlib

/-!
Verification of the compile-time core of the rune scripting language:
the constant-evaluating IR interpreter (ir/ir_interpreter.rs), the
context-meta resolution and scope-cleanup logic of the v1 assembler
(compile/v1.rs), and item peeking (ast/item.rs).

Shallow embedding conventions: the shared mutable containers of the Rust
IrValue (runestick Shared cells over Vec, Tuple, Object) are embedded as
pure trees; an in-place write through a clone of a Shared handle is
embedded as a functional update at the location where the read found the
value.  Spans are dropped, since no claim depends on them.  Fallible
operations return Except.
-/

/-- Value kinds, used in ExpectedKind error payloads (runestick TypeInfo). -/
inductive ValueKind : Type
| unitK
| boolK
| integerK
| strK
| vecK
| tupleK
| objectK
deriving DecidableEq, Repr

/-- The type parameter of IrError::expected, i.e. which runestick type the
error message names as the expected one.  get_target and set_target name
runestick::Tuple or runestick::Object explicitly at each call site. -/
inductive ExpectedTy : Type
| tupleTy
| objectTy
deriving DecidableEq, Repr

/-- IrErrorKind: the error taxonomy of IR evaluation (crate IrErrorKind,
with IrError::custom messages embedded as the custom constructor and the
shared Scopes missing-variable error as missingLocal). -/
inductive IrErrorKind : Type
| constCycle
| notConst
| breakOutsideOfLoop
| budgetExceeded
| missingField (field : String)
| missingIndex (index : Nat)
| expectedKind (expected : ExpectedTy) (actual : ValueKind)
| unsupportedMeta
| missingLocal (name : String)
| custom (msg : String)
deriving DecidableEq, Repr

/-- The interpreter working value (runestick IrValue).  Vec, Tuple and
Object are shared cells in the source; here they are pure trees, with
in-place mutation embedded as functional update along the access path. -/
inductive IrValue : Type
| unit : IrValue
| boolean (b : Bool) : IrValue
| integer (n : Int) : IrValue
| str (s : String) : IrValue
| vec (items : List IrValue) : IrValue
| tuple (items : List IrValue) : IrValue
| object (fields : List (String × IrValue)) : IrValue

/-- The kind of a value, as reported in ExpectedKind errors. -/
def IrValue.kind : IrValue → ValueKind
| .unit => .unitK
| .boolean _ => .boolK
| .integer _ => .integerK
| .str _ => .strK
| .vec _ => .vecK
| .tuple _ => .tupleK
| .object _ => .objectK

/-- ConstValue: the ground value produced by constant evaluation.  In the
source it is the sharing-free snapshot of an IrValue; in the pure
embedding the two coincide. -/
abbrev ConstValue := IrValue

/-- IrValue::into_const: deep snapshot to a ConstValue.  In the source
this fails only when a live borrow still holds a shared cell; evaluation
here is sequential with no outstanding borrows, so it is total. -/
def IrValue.into_const (v : IrValue) : Except IrErrorKind ConstValue :=
  .ok v

/-- IrValue::from_const: lift a ConstValue back into a working value. -/
def IrValue.from_const (v : ConstValue) : IrValue :=
  v

/-- Association-list lookup (first matching key wins). -/
def assocLookup {α β : Type} [DecidableEq α] : List (α × β) → α → Option β
| [], _ => none
| (k, v) :: rest, key => if k = key then some v else assocLookup rest key

/-- Association-list insert: replace the first binding of the key in
place, or append a fresh binding; models map insert. -/
def assocInsert {α β : Type} [DecidableEq α] : List (α × β) → α → β → List (α × β)
| [], key, v => [(key, v)]
| (k, w) :: rest, key, v =>
  if k = key then (key, v) :: rest else (k, w) :: assocInsert rest key v

/-- One lexical scope: identifier to IrValue bindings. -/
abbrev Scope := List (String × IrValue)

/-- IrScopes (crate shared::Scopes over IrValue): a stack of scopes with
the innermost (most recently pushed, the last of the source Vec) at the
head of the list. -/
abbrev Scopes := List Scope

/-- Modelled from the spec: shared::Scopes::get is not under src; per
section 4.6 variable lookup is innermost-first. -/
def Scopes.get : Scopes → String → Option IrValue
| [], _ => none
| sc :: rest, n =>
  match assocLookup sc n with
  | some v => some v
  | none => Scopes.get rest n

/-- Functional update at the innermost scope that binds the name: this is
where an in-place write through a handle obtained by Scopes.get lands.
Scopes without the binding are left unchanged. -/
def Scopes.update : Scopes → String → IrValue → Scopes
| [], _, _ => []
| sc :: rest, n, v =>
  match assocLookup sc n with
  | some _ => assocInsert sc n v :: rest
  | none => sc :: Scopes.update rest n v

/-- IrTarget (place expression): Name, Field or Index access path
(ir::IrTargetKind; spans dropped). -/
inductive IrTarget : Type
| name (n : String) : IrTarget
| field (target : IrTarget) (fieldName : String) : IrTarget
| index (target : IrTarget) (idx : Nat) : IrTarget

/-- IrScopes::get_target: read the value a target denotes.  Note that the
Field arm of the source reports the runestick::Tuple type in its
ExpectedKind error (ir_interpreter.rs line 132), unlike the write paths
which report runestick::Object. -/
def get_target (s : Scopes) : IrTarget → Except IrErrorKind IrValue
| .name n =>
  match Scopes.get s n with
  | some v => .ok v
  | none => .error (.missingLocal n)
| .field t f =>
  match get_target s t with
  | .error e => .error e
  | .ok v =>
    match v with
    | .object o =>
      match assocLookup o f with
      | some v => .ok v
      | none => .error (.missingField f)
    | actual => .error (.expectedKind .tupleTy actual.kind)
| .index t i =>
  match get_target s t with
  | .error e => .error e
  | .ok v =>
    match v with
    | .vec xs =>
      match xs.get? i with
      | some v => .ok v
      | none => .error (.missingIndex i)
    | .tuple xs =>
      match xs.get? i with
      | some v => .ok v
      | none => .error (.missingIndex i)
    | actual => .error (.expectedKind .tupleTy actual.kind)

/-- Navigate a target exactly as get_target does and apply a fallible
update at the location the read resolves to.  This embeds the source
pattern: read the target through shared handles, then mutate the obtained
value in place, which is visible at the location the read found it. -/
def modifyTarget (s : Scopes) : IrTarget → (IrValue → Except IrErrorKind IrValue) → Except IrErrorKind Scopes
| .name n, f =>
  match Scopes.get s n with
  | some v =>
    match f v with
    | .error e => .error e
    | .ok v2 => .ok (Scopes.update s n v2)
  | none => .error (.missingLocal n)
| .field t fld, f =>
  modifyTarget s t (fun cur =>
    match cur with
    | .object o =>
      match assocLookup o fld with
      | some v =>
        match f v with
        | .error e => .error e
        | .ok v2 => .ok (.object (assocInsert o fld v2))
      | none => .error (.missingField fld)
    | actual => .error (.expectedKind .tupleTy actual.kind))
| .index t i, f =>
  modifyTarget s t (fun cur =>
    match cur with
    | .vec xs =>
      match xs.get? i with
      | some v =>
        match f v with
        | .error e => .error e
        | .ok v2 => .ok (.vec (xs.set i v2))
      | none => .error (.missingIndex i)
    | .tuple xs =>
      match xs.get? i with
      | some v =>
        match f v with
        | .error e => .error e
        | .ok v2 => .ok (.tuple (xs.set i v2))
      | none => .error (.missingIndex i)
    | actual => .error (.expectedKind .tupleTy actual.kind))

/-- IrScopes::set_target: write a value to a target.  Name inserts into
the topmost scope (last_mut); Field reads the inner target, requires an
Object and inserts or overwrites the field; Index reads the inner target,
requires a Vec or Tuple and overwrites in range. -/
def set_target (s : Scopes) : IrTarget → IrValue → Except IrErrorKind Scopes
| .name n, v =>
  match s with
  | [] => .error (.custom "no scopes")
  | sc :: rest => .ok (assocInsert sc n v :: rest)
| .field t fld, v =>
  modifyTarget s t (fun cur =>
    match cur with
    | .object o => .ok (.object (assocInsert o fld v))
    | actual => .error (.expectedKind .objectTy actual.kind))
| .index t i, v =>
  modifyTarget s t (fun cur =>
    match cur with
    | .vec xs =>
      if i < xs.length then .ok (.vec (xs.set i v))
      else .error (.custom "missing index")
    | .tuple xs =>
      if i < xs.length then .ok (.tuple (xs.set i v))
      else .error (.custom "missing index")
    | actual => .error (.expectedKind .tupleTy actual.kind))

/-- IrScopes::mut_target: apply a mutation at a target.  The Name arm
consults only the topmost scope (last_mut followed by get_mut); the Field
and Index arms read the inner target with get_target and mutate the found
field or element. -/
def mut_target (s : Scopes) (t : IrTarget) (op : IrValue → Except IrErrorKind IrValue) : Except IrErrorKind Scopes :=
  match t with
  | .name n =>
    match s with
    | [] => .error (.custom "no scopes")
    | sc :: rest =>
      match assocLookup sc n with
      | some v =>
        match op v with
        | .error e => .error e
        | .ok v2 => .ok (assocInsert sc n v2 :: rest)
      | none => .error (.custom "not such variable")
  | .field t fld =>
    modifyTarget s t (fun cur =>
      match cur with
      | .object o =>
        match assocLookup o fld with
        | some v =>
          match op v with
          | .error e => .error e
          | .ok v2 => .ok (.object (assocInsert o fld v2))
        | none => .error (.missingField fld)
      | actual => .error (.expectedKind .objectTy actual.kind))
  | .index t i =>
    modifyTarget s t (fun cur =>
      match cur with
      | .vec xs =>
        match xs.get? i with
        | some v =>
          match op v with
          | .error e => .error e
          | .ok v2 => .ok (.vec (xs.set i v2))
        | none => .error (.missingIndex i)
      | .tuple xs =>
        match xs.get? i with
        | some v =>
          match op v with
          | .error e => .error e
          | .ok v2 => .ok (.tuple (xs.set i v2))
        | none => .error (.missingIndex i)
      | actual => .error (.expectedKind .tupleTy actual.kind))

/-- Item: a fully qualified path, an ordered list of name components. -/
abbrev Item := List String

/-- The constant cache plus the in-progress marked set (crate
query::Consts, reached through Query; modelled from the spec invariants
in section 3 where the struct itself is not under src). -/
structure Consts : Type where
  values : List (Item × ConstValue)
  marked : List Item

/-- Consts::get: look up a fully evaluated constant. -/
def Consts.get (c : Consts) (i : Item) : Option ConstValue :=
  assocLookup c.values i

/-- Consts::mark: record an item as in-progress; returns false (and the
unchanged cache) when the item was already marked. -/
def Consts.mark (c : Consts) (i : Item) : Bool × Consts :=
  if c.marked.contains i then (false, c)
  else (true, { c with marked := i :: c.marked })

/-- Consts::insert: store an evaluated constant, returning the previous
value for the key (map insert semantics). -/
def Consts.insert (c : Consts) (i : Item) (v : ConstValue) : Option ConstValue × Consts :=
  (Consts.get c i, { c with values := assocInsert c.values i v })

/-- EvalOutcome: the short-circuit channel of the inner evaluator
(ir::eval::EvalOutcome): a plain error, a not-const abort, or a break
escaping its loop. -/
inductive EvalOutcome : Type
| error (e : IrErrorKind)
| notConst
| breakOutcome
deriving DecidableEq, Repr

/-- IrInterpreter::eval_expr: the outer caching entry point.  The inner
evaluator self.eval is abstracted as a function from the cache state to
an outcome and an updated cache (it may recursively evaluate and cache
other constants through the query engine). -/
def eval_expr (item : Item) (c : Consts)
    (inner : Consts → (Except EvalOutcome IrValue) × Consts) :
    Except IrErrorKind ConstValue × Consts :=
  match Consts.get c item with
  | some v => (.ok v, c)
  | none =>
    let m := Consts.mark c item
    if m.1 then
      match inner m.2 with
      | (.error (.error e), c2) => (.error e, c2)
      | (.error .notConst, c2) => (.error .notConst, c2)
      | (.error .breakOutcome, c2) => (.error .breakOutsideOfLoop, c2)
      | (.ok v, c2) =>
        match v.into_const with
        | .error e => (.error e, c2)
        | .ok cv =>
          let r := Consts.insert c2 item cv
          if r.1.isSome then (.error .constCycle, r.2)
          else (.ok cv, r.2)
    else (.error .constCycle, m.2)

/-- A minimal constant body: a literal, or a reference to another
constant item. -/
inductive MIr : Type
| lit (v : IrValue)
| ref (i : Item)

/-- Modelled from the spec: the route by which evaluating one constant
triggers evaluation of a referenced constant (resolve_var, then
query_meta elaboration of the referenced item, which re-enters eval_expr;
the query engine is not under src).  Per sections 4.4 and 8 scenario 2,
a reference evaluates the referenced item through the caching, cycle
detecting eval_expr.  Recursion is bounded by explicit fuel. -/
def evalRec : Nat → (Item → Option MIr) → Item → Consts → Except IrErrorKind ConstValue × Consts
| 0, _, _, c => (.error (.custom "fuel"), c)
| Nat.succ fuel, prog, item, c =>
  eval_expr item c (fun c1 =>
    match prog item with
    | none => ((.error .notConst : Except EvalOutcome IrValue), c1)
    | some (.lit v) => (.ok v, c1)
    | some (.ref j) =>
      match evalRec fuel prog j c1 with
      | (.ok cv, c2) => (.ok (IrValue.from_const cv), c2)
      | (.error e, c2) => (.error (.error e), c2))

/-- The mutually recursive pair of section 8 scenario 2: the constant A
is defined as B and the constant B is defined as A. -/
def progAB : Item → Option MIr := fun i =>
  if i = ["A"] then some (.ref ["B"])
  else if i = ["B"] then some (.ref ["A"])
  else none

/-- A compile meta as seen by resolve_var (CompileMetaKind): either a
constant carrying its value, or some other kind. -/
inductive CMeta : Type
| constMeta (v : ConstValue)
| otherMeta

/-- IrInterpreter::resolve_var ancestor walk, on the reversed base item
(the source pops the last path component each iteration; popping the
head of the reversed path is the same walk).  At each step the candidate
is parent plus the identifier: consult the consts cache, then the query;
a Const meta yields its value, any other meta kind is UnsupportedMeta,
an absent meta continues upward; an exhausted path is NotConst. -/
def resolve_var_loop (consts : Consts)
    (qm : Item → Except IrErrorKind (Option CMeta)) (ident : String) :
    List String → Except IrErrorKind IrValue
| [] => .error .notConst
| _ :: rparent =>
  let cand := rparent.reverse ++ [ident]
  match Consts.get consts cand with
  | some cv => .ok (IrValue.from_const cv)
  | none =>
    match qm cand with
    | .error e => .error e
    | .ok none => resolve_var_loop consts qm ident rparent
    | .ok (some (.constMeta v)) => .ok (IrValue.from_const v)
    | .ok (some .otherMeta) => .error .unsupportedMeta

/-- IrInterpreter::resolve_var: lexical scopes innermost-outward first
(returning a clone of the binding), then the ancestor walk from the
interpreter's current item. -/
def resolve_var (scopes : Scopes) (consts : Consts)
    (qm : Item → Except IrErrorKind (Option CMeta))
    (item : Item) (ident : String) : Except IrErrorKind IrValue :=
  match Scopes.get scopes ident with
  | some v => .ok v
  | none => resolve_var_loop consts qm ident item.reverse

/-- The proper ancestors of a reversed path, innermost first, each still
reversed: dropping one trailing component at a time down to the root. -/
def ancestorsRev : List String → List (List String)
| [] => []
| _ :: r => r :: ancestorsRev r

/-- Specification twin of the ancestor walk, written from the words of
the spec (section 4.4): given the explicit list of ancestor paths in
walk order, try each candidate ancestor plus ident in turn; a consts hit
returns the cached value, a Const meta returns its value, another meta
kind is UnsupportedMeta, no meta moves to the next ancestor, and an
exhausted list is NotConst. -/
def resolve_var_spec_walk (consts : Consts)
    (qm : Item → Except IrErrorKind (Option CMeta)) (ident : String) :
    List Item → Except IrErrorKind IrValue
| [] => .error .notConst
| anc :: rest =>
  let cand := anc ++ [ident]
  match Consts.get consts cand with
  | some cv => .ok (IrValue.from_const cv)
  | none =>
    match qm cand with
    | .error e => .error e
    | .ok none => resolve_var_spec_walk consts qm ident rest
    | .ok (some (.constMeta v)) => .ok (IrValue.from_const v)
    | .ok (some .otherMeta) => .error .unsupportedMeta

/-- Specification twin of resolve_var, written from the words of the
spec: lexical scopes innermost-outward, then the walk over the explicit
ancestor list of the current item. -/
def resolve_var_spec (scopes : Scopes) (consts : Consts)
    (qm : Item → Except IrErrorKind (Option CMeta))
    (item : Item) (ident : String) : Except IrErrorKind IrValue :=
  match Scopes.get scopes ident with
  | some v => .ok v
  | none =>
    resolve_var_spec_walk consts qm ident
      ((ancestorsRev item.reverse).map List.reverse)

/-- IrBudget: the evaluation step budget, a single counter. -/
structure IrBudget : Type where
  budget : Nat
deriving DecidableEq, Repr

/-- IrBudget::new. -/
def IrBudget.new (b : Nat) : IrBudget :=
  ⟨b⟩

/-- IrBudget::take: fail with BudgetExceeded when the counter is zero,
otherwise decrement. -/
def IrBudget.take (b : IrBudget) : Except IrErrorKind IrBudget :=
  if b.budget = 0 then .error .budgetExceeded
  else .ok ⟨b.budget - 1⟩

/-- Take from the budget once per visited IR node, n times in sequence
(every IR node evaluator calls take first, per section 4.4). -/
def takeN : Nat → IrBudget → Except IrErrorKind IrBudget
| 0, b => .ok b
| Nat.succ n, b =>
  match b.take with
  | .error e => .error e
  | .ok b2 => takeN n b2

/-- The budget installed on the fresh IrInterpreter built by
Assembler::call_const_fn (compile/v1.rs line 247). -/
def call_const_fn_budget : IrBudget :=
  IrBudget.new 1000000

/-- Generics hash (runestick Hash): a digest of the generic argument
sequence, embedded as a natural number. -/
abbrev HashV := Nat

/-- Hash::EMPTY, the hash of the empty parameter sequence. -/
def HashV.EMPTY : HashV :=
  0

/-- The kind of a host-registered context meta (compile::meta::Kind),
with the parameters hash carried by the value-like kinds. -/
inductive MKind : Type
| macroKind
| moduleKind
| functionKind (parameters : HashV)
| constKind (parameters : HashV)
| typeKind (parameters : HashV)
deriving DecidableEq, Repr

/-- meta::Kind::as_parameters: the parameters hash of a kind (empty for
the kinds that carry none). -/
def MKind.as_parameters : MKind → HashV
| .macroKind => HashV.EMPTY
| .moduleKind => HashV.EMPTY
| .functionKind p => p
| .constKind p => p
| .typeKind p => p

/-- Whether a kind matches the Macro or Module pattern filtered out by
select_context_meta. -/
def MKind.isMacroOrModule : MKind → Bool
| .macroKind => true
| .moduleKind => true
| _ => false

/-- A host-registered context meta: its kind and its diagnostic info
(ContextMeta; info abstracts the MetaInfo payload of i.info()). -/
structure ContextMeta : Type where
  kind : MKind
  info : Nat
deriving DecidableEq, Repr

/-- QueryErrorKind: the slice reached from select_context_meta. -/
inductive QueryErrorKind : Type
| ambiguousContextItem (item : Item) (infos : List Nat)
deriving DecidableEq, Repr

/-- CompileErrorKind: the slice reached from lookup_meta. -/
inductive CompileErrorKind : Type
| missingItem (item : Item)
| missingItemParameters (item : Item) (parameters : HashV)
| queryError (e : QueryErrorKind)
deriving DecidableEq, Repr

/-- The candidate filter of Assembler::select_context_meta: drop Macro
and Module kinds, keep the metas whose parameters hash equals the
requested one. -/
def context_candidates (metas : List ContextMeta) (parameters : HashV) : List ContextMeta :=
  (metas.filter (fun i => !i.kind.isMacroOrModule)).filter
    (fun i => i.kind.as_parameters = parameters)

/-- Assembler::select_context_meta: with the requested generics hash
defaulting to the empty hash, return the single matching candidate, or
none when no candidate matches; two or more matches fail with
AmbiguousContextItem carrying the info of every meta that was looked up
for the item. -/
def select_context_meta (item : Item) (metas : List ContextMeta)
    (parameters : Option HashV) : Except QueryErrorKind (Option ContextMeta) :=
  let p := parameters.getD HashV.EMPTY
  match context_candidates metas p with
  | [] => .ok none
  | [m] => .ok (some m)
  | _ => .error (.ambiguousContextItem item (metas.map (fun i => i.info)))

/-- Assembler::try_lookup_meta: when no generics are requested, a hit in
the query engine (abstracted as queryMeta) returns at once; otherwise the
host-registered metas go through select_context_meta. -/
def try_lookup_meta (queryMeta : Option ContextMeta) (item : Item)
    (metas : List ContextMeta) (generics : Option HashV) :
    Except QueryErrorKind (Option ContextMeta) :=
  match generics, queryMeta with
  | none, some m => .ok (some m)
  | _, _ => select_context_meta item metas generics

/-- Assembler::lookup_meta: a missing result becomes MissingItem, or
MissingItemParameters when a generics hash was requested. -/
def lookup_meta (queryMeta : Option ContextMeta) (item : Item)
    (metas : List ContextMeta) (parameters : Option HashV) :
    Except CompileErrorKind ContextMeta :=
  match try_lookup_meta queryMeta item metas parameters with
  | .error e => .error (.queryError e)
  | .ok (some m) => .ok m
  | .ok none =>
    match parameters with
    | some p => .error (.missingItemParameters item p)
    | none => .error (.missingItem item)

/-- Needs: the three-valued hint telling emission whether the value of an
expression is required. -/
inductive Needs : Type
| typeNeed
| valueNeed
| noneNeed
deriving DecidableEq, Repr

/-- Needs::value: whether any sort of value is needed (true for Type and
Value, false for None). -/
def Needs.value : Needs → Bool
| .typeNeed => true
| .valueNeed => true
| .noneNeed => false

/-- The stack instructions emitted by the scope cleanup paths (runtime
Inst slice referenced by this core). -/
inductive Inst : Type
| pop
| popN (count : Nat)
| clean (count : Nat)
deriving DecidableEq, Repr

/-- Assembler::locals_pop: nothing for zero locals, Pop for one, PopN
for more. -/
def locals_pop (total_var_count : Nat) : List Inst :=
  match total_var_count with
  | 0 => []
  | 1 => [.pop]
  | count => [.popN count]

/-- Assembler::locals_clean: nothing for zero locals, otherwise Clean,
which pops the slots while preserving the top of the stack. -/
def locals_clean (total_var_count : Nat) : List Inst :=
  match total_var_count with
  | 0 => []
  | count => [.clean count]

/-- A compile-time scope of the v1 assembler, carrying its local count. -/
structure CScope : Type where
  local_var_count : Nat
deriving DecidableEq, Repr

/-- The assembler scope stack, innermost at the head. -/
abbrev CScopes := List CScope

/-- Modelled from the spec: compile::v1::scopes is not under src.  Per
sections 3 and 4.6, popping requires presenting the guard returned by
the matching push; the guard is embedded as the stack depth below the
pushed scope, and popping with the wrong guard or from an empty stack is
an error. -/
def CScopes.pop (s : CScopes) (guard : Nat) : Except String (CScope × CScopes) :=
  match s with
  | [] => .error "missing parent scope"
  | sc :: rest =>
    if rest.length = guard then .ok (sc, rest)
    else .error "unexpected scope guard"

/-- Assembler::clean_last_scope: pop the scope with the presented guard;
emit through locals_clean when the context wants a value, through
locals_pop otherwise. -/
def clean_last_scope (scopes : CScopes) (guard : Nat) (needs : Needs) :
    Except String (List Inst × CScopes) :=
  match CScopes.pop scopes guard with
  | .error e => .error e
  | .ok (scope, rest) =>
    .ok
      ((if needs.value then locals_clean scope.local_var_count
        else locals_pop scope.local_var_count), rest)

/-- The token kinds relevant to Item::peek_as_stmt (ast::Kind slice; the
bang token begins the argument list of a macro call after its path). -/
inductive TokenKind : Type
| identTok
| bangTok
| useTok
| enumTok
| structTok
| implTok
| asyncTok
| fnTok
| modTok
| constTok
| otherTok
deriving DecidableEq, Repr, Fintype

/-- Item::peek_as_stmt: peek at the next token pair; absent input (end of
stream) is false, Async is an item only when followed by Fn, and the
listed item keywords are items; everything else, identifiers included,
is not. -/
def peek_as_stmt : Option (TokenKind × Option TokenKind) → Bool
| none => false
| some (t1, t2) =>
  match t1 with
  | .useTok => true
  | .enumTok => true
  | .structTok => true
  | .implTok => true
  | .asyncTok =>
    match t2 with
    | some .fnTok => true
    | _ => false
  | .fnTok => true
  | .modTok => true
  | .constTok => true
  | _ => false

theorem assocLookup_insert {α β : Type} [DecidableEq α]
    (l : List (α × β)) (k : α) (v : β) :
    assocLookup (assocInsert l k v) k = some v := by
  induction l with
  | nil => simp [assocInsert, assocLookup]
  | cons hd tl ih =>
    obtain ⟨k2, w⟩ := hd
    by_cases h : k2 = k
    · simp [assocInsert, h, assocLookup]
    · simp [assocInsert, h, assocLookup, ih]

theorem Scopes.get_update (s : Scopes) (n : String) (v w : IrValue)
    (h : Scopes.get s n = some v) :
    Scopes.get (Scopes.update s n w) n = some w := by
  induction s with
  | nil => simp [Scopes.get] at h
  | cons sc rest ih =>
    cases hsc : assocLookup sc n with
    | some u =>
      simp [Scopes.update, hsc, Scopes.get, assocLookup_insert]
    | none =>
      simp [Scopes.get, hsc] at h
      simp [Scopes.update, hsc, Scopes.get, ih h]

theorem List.get?_set_self_lt {α : Type} (xs : List α) (i : Nat) (v : α)
    (h : i < xs.length) : (xs.set i v).get? i = some v := by
  induction xs generalizing i with
  | nil => simp at h
  | cons hd tl ih =>
    cases i with
    | zero => simp [List.set]
    | succ j =>
      simp only [List.length_cons, Nat.succ_lt_succ_iff] at h
      simpa [List.set] using ih j h

theorem takeN_exhaust : ∀ (M : Nat) (b : IrBudget), b.budget < M →
    takeN M b = .error .budgetExceeded := by
  intro M
  induction M with
  | zero => intro b h; omega
  | succ m ih =>
    intro b h
    by_cases h0 : b.budget = 0
    · simp [takeN, IrBudget.take, h0]
    · have hlt : b.budget - 1 < m := by omega
      simp [takeN, IrBudget.take, h0]
      exact ih ⟨b.budget - 1⟩ hlt

/-- Claim C4: IrBudget::take fails with BudgetExceeded exactly when the
counter is zero and otherwise decrements it by one; an evaluation that
takes the budget at least N times starting from budget N minus one hits
BudgetExceeded; and the interpreter built by Assembler::call_const_fn
starts with budget 1000000. -/
theorem irbudget_semantics :
    (∀ b : IrBudget,
      (b.budget = 0 → b.take = .error .budgetExceeded)
      ∧ (0 < b.budget → b.take = .ok ⟨b.budget - 1⟩))
    ∧ (∀ N M : Nat, 1 ≤ N → N ≤ M →
        takeN M (IrBudget.new (N - 1)) = .error .budgetExceeded)
    ∧ call_const_fn_budget = IrBudget.new 1000000 := by
  refine ⟨?_, ?_, rfl⟩
  · intro b
    constructor
    · intro h; simp [IrBudget.take, h]
    · intro h; simp [IrBudget.take, Nat.pos_iff_ne_zero.mp h]
  · intro N M h1 h2
    exact takeN_exhaust M (IrBudget.new (N - 1)) (by simp [IrBudget.new]; omega)

theorem irbudget_semantics_witness :
    (IrBudget.new 0).take = .error .budgetExceeded
    ∧ (IrBudget.new 5).take = .ok (IrBudget.new 4)
    ∧ takeN 3 (IrBudget.new 2) = .error .budgetExceeded :=
  ⟨(irbudget_semantics.1 (IrBudget.new 0)).1 rfl,
   (irbudget_semantics.1 (IrBudget.new 5)).2 (by decide),
   irbudget_semantics.2.1 3 3 (by decide) (by decide)⟩

/-- Claim C6, evaluated at the failing input: get_target on a Field
target whose base is an Object lacking the field fails with
MissingField, but on a base that is not an Object it fails with
ExpectedKind naming Tuple as the expected kind (ir_interpreter.rs line
132 passes runestick::Tuple), where the claim, the spec and the sibling
write paths (set_target, mut_target) expect an Object report. -/
theorem get_target_field_error_eval :
    get_target [[("x", IrValue.object [])]] (.field (.name "x") "f")
      = .error (.missingField "f")
    ∧ get_target [[("x", IrValue.integer 1)]] (.field (.name "x") "f")
      = .error (.expectedKind .tupleTy .integerK) :=
  ⟨rfl, rfl⟩

/-- Claim C8: clean_last_scope pops the scope with the presented guard;
a value-wanting context (Type or Value) emits via locals_clean, which is
Clean of the local count when nonzero and nothing for zero; a None
context emits via locals_pop, which is nothing for zero locals, Pop for
one and PopN for more. -/
theorem clean_last_scope_policy :
    (∀ (sc : CScope) (rest : CScopes) (guard : Nat) (needs : Needs),
      rest.length = guard →
      clean_last_scope (sc :: rest) guard needs
        = .ok ((if needs.value then locals_clean sc.local_var_count
                else locals_pop sc.local_var_count), rest))
    ∧ Needs.typeNeed.value = true ∧ Needs.valueNeed.value = true
    ∧ Needs.noneNeed.value = false
    ∧ locals_pop 0 = [] ∧ locals_pop 1 = [.pop]
    ∧ (∀ n, 2 ≤ n → locals_pop n = [.popN n])
    ∧ locals_clean 0 = []
    ∧ (∀ n, 1 ≤ n → locals_clean n = [.clean n]) := by
  refine ⟨?_, rfl, rfl, rfl, rfl, rfl, ?_, rfl, ?_⟩
  · intro sc rest guard needs h
    simp [clean_last_scope, CScopes.pop, h]
  · intro n h
    match n with
    | Nat.succ (Nat.succ m) => rfl
  · intro n h
    match n with
    | Nat.succ m => rfl

theorem clean_last_scope_policy_witness :
    clean_last_scope [⟨1⟩] 0 .noneNeed = .ok ([Inst.pop], [])
    ∧ clean_last_scope [⟨2⟩] 0 .valueNeed = .ok ([Inst.clean 2], [])
    ∧ locals_pop 2 = [Inst.popN 2]
    ∧ locals_clean 3 = [Inst.clean 3] :=
  ⟨clean_last_scope_policy.1 ⟨1⟩ [] 0 .noneNeed rfl,
   clean_last_scope_policy.1 ⟨2⟩ [] 0 .valueNeed rfl,
   clean_last_scope_policy.2.2.2.2.2.2.1 2 (by decide),
   clean_last_scope_policy.2.2.2.2.2.2.2.2 3 (by decide)⟩

/-- Claim C9, counterexample: at statement position an identifier that
begins a macro-call path (identifier followed by a bang) is not
recognized by peek_as_stmt, which returns false for it. -/
theorem peek_as_stmt_ident_not_item :
    peek_as_stmt (some (.identTok, some .bangTok)) = false :=
  rfl

set_option maxRecDepth 4000 in
/-- Claim C9 as amended: peek_as_stmt returns true exactly when the
leading token is one of use, enum, struct, impl, fn, mod, const, or
async followed by fn; identifiers beginning macro-call paths are not
recognized. -/
theorem peek_as_stmt_characterization :
    ∀ p : Option (TokenKind × Option TokenKind),
      peek_as_stmt p = true ↔
        ∃ t1 t2, p = some (t1, t2) ∧
          (t1 = TokenKind.useTok ∨ t1 = TokenKind.enumTok
            ∨ t1 = TokenKind.structTok ∨ t1 = TokenKind.implTok
            ∨ t1 = TokenKind.fnTok ∨ t1 = TokenKind.modTok
            ∨ t1 = TokenKind.constTok
            ∨ (t1 = TokenKind.asyncTok ∧ t2 = some TokenKind.fnTok)) := by
  decide

/-- Claim C10: mut_target on a Name target consults only the topmost
scope: when the identifier is bound only in an outer scope the mutation
fails with the not-such-variable error even though get_target on the
same stack succeeds by finding the nearest binding. -/
theorem mut_target_name_topmost_only :
    ∀ (sc : Scope) (rest : Scopes) (n : String)
      (op : IrValue → Except IrErrorKind IrValue) (v : IrValue),
      assocLookup sc n = none → Scopes.get rest n = some v →
      mut_target (sc :: rest) (.name n) op = .error (.custom "not such variable")
      ∧ get_target (sc :: rest) (.name n) = .ok v := by
  intro sc rest n op v h1 h2
  constructor
  · simp [mut_target, h1]
  · simp [get_target, Scopes.get, h1, h2]

theorem mut_target_name_topmost_only_witness :
    mut_target [[], [("x", IrValue.integer 1)]] (.name "x") (fun v => .ok v)
      = .error (.custom "not such variable")
    ∧ get_target [[], [("x", IrValue.integer 1)]] (.name "x")
      = .ok (IrValue.integer 1) :=
  mut_target_name_topmost_only [] [[("x", IrValue.integer 1)]] "x"
    (fun v => .ok v) (IrValue.integer 1) rfl rfl

theorem eval_expr_ok_get (item : Item) (c : Consts)
    (inner : Consts → (Except EvalOutcome IrValue) × Consts)
    (v : ConstValue) (c2 : Consts)
    (h : eval_expr item c inner = (.ok v, c2)) :
    Consts.get c2 item = some v := by
  unfold eval_expr at h
  cases hget : Consts.get c item with
  | some w =>
    rw [hget] at h
    simp only [Prod.mk.injEq, Except.ok.injEq] at h
    obtain ⟨hv, hc⟩ := h
    subst hv
    subst hc
    exact hget
  | none =>
    rw [hget] at h
    by_cases hm : c.marked.contains item
    · simp only [Consts.mark, hm, if_true] at h
      simp at h
    · simp only [Consts.mark, hm, Bool.false_eq_true, if_false] at h
      rcases hinner : inner { c with marked := item :: c.marked } with ⟨res, c3⟩
      rw [hinner] at h
      match res with
      | .error (.error e) => simp at h
      | .error .notConst => simp at h
      | .error .breakOutcome => simp at h
      | .ok w =>
        simp only [IrValue.into_const] at h
        cases hold : Consts.get c3 item with
        | some u =>
          simp [Consts.insert, hold] at h
        | none =>
          simp only [Consts.insert, hold, Option.isSome_none,
            Bool.false_eq_true, if_false, Prod.mk.injEq, Except.ok.injEq] at h
          simp only [if_true, ite_true, Prod.mk.injEq, Except.ok.injEq] at h
          obtain ⟨hv, hc⟩ := h
          subst hv
          subst hc
          simp [Consts.get, assocLookup_insert]

/-- Claim C1: eval_expr is caching: a consts-cache hit for the current
item returns the cached ConstValue with the cache untouched, for every
inner evaluator (so the IR is not evaluated); consequently when a first
call returns a ConstValue, a second call on the same item returns the
equal value and does not re-enter the interpreter body, again for every
inner evaluator. -/
theorem eval_expr_caching :
    (∀ (item : Item) (c : Consts)
      (inner : Consts → (Except EvalOutcome IrValue) × Consts)
      (v : ConstValue),
      Consts.get c item = some v → eval_expr item c inner = (.ok v, c))
    ∧ (∀ (item : Item) (c : Consts)
        (inner : Consts → (Except EvalOutcome IrValue) × Consts)
        (v : ConstValue) (c2 : Consts),
        eval_expr item c inner = (.ok v, c2) →
        ∀ inner2, eval_expr item c2 inner2 = (.ok v, c2)) := by
  have hhit : ∀ (item : Item) (c : Consts)
      (inner : Consts → (Except EvalOutcome IrValue) × Consts)
      (v : ConstValue),
      Consts.get c item = some v → eval_expr item c inner = (.ok v, c) := by
    intro item c inner v h
    unfold eval_expr
    rw [h]
  refine ⟨hhit, ?_⟩
  intro item c inner v c2 h inner2
  exact hhit item c2 inner2 v (eval_expr_ok_get item c inner v c2 h)

theorem eval_expr_caching_witness :
    eval_expr [String.mk ['N']] ⟨[([String.mk ['N']], IrValue.integer 42)], []⟩
        (fun c => (.ok IrValue.unit, c))
      = (.ok (IrValue.integer 42), ⟨[([String.mk ['N']], IrValue.integer 42)], []⟩)
    ∧ eval_expr [String.mk ['N']] ⟨[([String.mk ['N']], IrValue.integer 42)], []⟩
        (fun c => (.error .notConst, c))
      = (.ok (IrValue.integer 42), ⟨[([String.mk ['N']], IrValue.integer 42)], []⟩) :=
  ⟨eval_expr_caching.1 [String.mk ['N']]
      ⟨[([String.mk ['N']], IrValue.integer 42)], []⟩
      (fun c => (.ok IrValue.unit, c)) (IrValue.integer 42) rfl,
   eval_expr_caching.2 [String.mk ['N']]
      ⟨[([String.mk ['N']], IrValue.integer 42)], []⟩
      (fun c => (.ok IrValue.unit, c)) (IrValue.integer 42)
      ⟨[([String.mk ['N']], IrValue.integer 42)], []⟩ rfl
      (fun c => (.error .notConst, c))⟩

/-- Claim C2: eval_expr detects constant cycles: a current item already
marked but not cached fails with ConstCycle for every inner evaluator
(so before evaluating, with the cache unchanged); a cache insert after
evaluation that finds a value already present fails with ConstCycle; and
evaluating either of the mutually recursive constants A defined as B and
B defined as A fails with ConstCycle with neither item in the consts
cache afterwards. -/
theorem eval_expr_cycle :
    (∀ (item : Item) (c : Consts)
      (inner : Consts → (Except EvalOutcome IrValue) × Consts),
      Consts.get c item = none → c.marked.contains item = true →
      eval_expr item c inner = (.error .constCycle, c))
    ∧ (∀ (item : Item) (c : Consts)
        (inner : Consts → (Except EvalOutcome IrValue) × Consts)
        (v : IrValue) (c3 : Consts) (w : ConstValue),
        Consts.get c item = none → c.marked.contains item = false →
        inner { c with marked := item :: c.marked } = (.ok v, c3) →
        Consts.get c3 item = some w →
        (eval_expr item c inner).1 = .error .constCycle)
    ∧ ((evalRec 3 progAB [String.mk ['A']] ⟨[], []⟩).1 = .error .constCycle
       ∧ Consts.get (evalRec 3 progAB [String.mk ['A']] ⟨[], []⟩).2 [String.mk ['A']] = none
       ∧ Consts.get (evalRec 3 progAB [String.mk ['A']] ⟨[], []⟩).2 [String.mk ['B']] = none
       ∧ (evalRec 3 progAB [String.mk ['B']] ⟨[], []⟩).1 = .error .constCycle
       ∧ Consts.get (evalRec 3 progAB [String.mk ['B']] ⟨[], []⟩).2 [String.mk ['A']] = none
       ∧ Consts.get (evalRec 3 progAB [String.mk ['B']] ⟨[], []⟩).2 [String.mk ['B']] = none) := by
  refine ⟨?_, ?_, rfl, rfl, rfl, rfl, rfl, rfl⟩
  · intro item c inner hget hm
    unfold eval_expr
    rw [hget]
    simp only [Consts.mark, hm]
    simp
  · intro item c inner v c3 w hget hm hinner hold
    unfold eval_expr
    rw [hget]
    simp only [Consts.mark, hm, Bool.false_eq_true, if_false]
    rw [hinner]
    simp [IrValue.into_const, Consts.insert, hold]

theorem eval_expr_cycle_witness :
    eval_expr [String.mk ['A']] ⟨[], [[String.mk ['A']]]⟩
        (fun c => (.ok IrValue.unit, c))
      = (.error .constCycle, ⟨[], [[String.mk ['A']]]⟩)
    ∧ (eval_expr [String.mk ['A']] ⟨[], []⟩
        (fun c => (.ok IrValue.unit,
          (Consts.insert c [String.mk ['A']] IrValue.unit).2))).1
      = .error .constCycle :=
  ⟨eval_expr_cycle.1 [String.mk ['A']] ⟨[], [[String.mk ['A']]]⟩
      (fun c => (.ok IrValue.unit, c)) rfl rfl,
   eval_expr_cycle.2.1 [String.mk ['A']] ⟨[], []⟩
      (fun c => (.ok IrValue.unit,
        (Consts.insert c [String.mk ['A']] IrValue.unit).2))
      IrValue.unit
      (Consts.insert ⟨[], [[String.mk ['A']]]⟩ [String.mk ['A']] IrValue.unit).2
      IrValue.unit rfl rfl rfl rfl⟩

/-- Claim C3: context-meta resolution: after filtering out Macro and
Module kinds and keeping only the context metas whose parameters hash
equals the requested generics (the empty hash when none requested), a
single remaining candidate is returned; no remaining candidate makes the
result missing, so lookup_meta fails with MissingItem, or
MissingItemParameters when generics were supplied; two or more remaining
candidates fail with AmbiguousContextItem whose info list is that of
every looked-up meta, so it reports every candidate's info. -/
theorem context_meta_resolution :
    ∀ (item : Item) (metas : List ContextMeta) (generics : Option HashV),
      (∀ m, context_candidates metas (generics.getD HashV.EMPTY) = [m] →
        select_context_meta item metas generics = .ok (some m))
      ∧ (context_candidates metas (generics.getD HashV.EMPTY) = [] →
          select_context_meta item metas generics = .ok none
          ∧ lookup_meta none item metas generics
              = .error (match generics with
                        | some p => .missingItemParameters item p
                        | none => .missingItem item))
      ∧ (∀ m1 m2 rest,
          context_candidates metas (generics.getD HashV.EMPTY) = m1 :: m2 :: rest →
          select_context_meta item metas generics
            = .error (.ambiguousContextItem item (metas.map (fun i => i.info)))
          ∧ ∀ m, m ∈ context_candidates metas (generics.getD HashV.EMPTY) →
              m.info ∈ metas.map (fun i => i.info)) := by
  intro item metas generics
  refine ⟨?_, ?_, ?_⟩
  · intro m h
    simp [select_context_meta, h]
  · intro h
    have hsel : select_context_meta item metas generics = .ok none := by
      simp [select_context_meta, h]
    refine ⟨hsel, ?_⟩
    have htry : try_lookup_meta none item metas generics = .ok none := by
      cases generics with
      | none => simpa [try_lookup_meta] using hsel
      | some g => simpa [try_lookup_meta] using hsel
    cases generics with
    | none => simp [lookup_meta, htry]
    | some g => simp [lookup_meta, htry]
  · intro m1 m2 rest h
    constructor
    · simp [select_context_meta, h]
    · intro m hm
      simp only [context_candidates, List.mem_filter] at hm
      exact List.mem_map.mpr ⟨m, hm.1.1, rfl⟩

theorem context_meta_resolution_witness :
    select_context_meta [] [⟨.constKind 0, 1⟩] none = .ok (some ⟨.constKind 0, 1⟩)
    ∧ lookup_meta none [] [⟨.macroKind, 7⟩] none = .error (.missingItem [])
    ∧ lookup_meta none [] [⟨.constKind 3, 8⟩] (some 5)
        = .error (.missingItemParameters [] 5)
    ∧ select_context_meta [] [⟨.functionKind 0, 1⟩, ⟨.functionKind 0, 2⟩] none
        = .error (.ambiguousContextItem [] [1, 2]) :=
  ⟨(context_meta_resolution [] [⟨.constKind 0, 1⟩] none).1 ⟨.constKind 0, 1⟩ rfl,
   ((context_meta_resolution [] [⟨.macroKind, 7⟩] none).2.1 rfl).2,
   ((context_meta_resolution [] [⟨.constKind 3, 8⟩] (some 5)).2.1 rfl).2,
   ((context_meta_resolution [] [⟨.functionKind 0, 1⟩, ⟨.functionKind 0, 2⟩]
      none).2.2 ⟨.functionKind 0, 1⟩ ⟨.functionKind 0, 2⟩ [] rfl).1⟩

theorem resolve_var_loop_eq_walk (consts : Consts)
    (qm : Item → Except IrErrorKind (Option CMeta)) (ident : String) :
    ∀ rbase : List String,
      resolve_var_loop consts qm ident rbase
        = resolve_var_spec_walk consts qm ident
            ((ancestorsRev rbase).map List.reverse) := by
  intro rbase
  induction rbase with
  | nil => rfl
  | cons x r ih =>
    simp only [ancestorsRev, List.map_cons]
    simp only [resolve_var_loop, resolve_var_spec_walk]
    cases Consts.get consts (r.reverse ++ [ident]) with
    | some cv => rfl
    | none =>
      cases qm (r.reverse ++ [ident]) with
      | error e => rfl
      | ok om =>
        cases om with
        | none => simpa using ih
        | some m => cases m <;> rfl

/-- Claim C5: resolve_var equals its specification: every identifier is
first searched in the lexical scopes innermost-outward, returning a
clone of the bound IrValue on a hit; otherwise the walk visits each
ancestor of the item path in order, forming the candidate ancestor plus
ident, returning the consts-cache value if cached, else the value of a
Const meta from the query, failing with UnsupportedMeta on any other
meta kind, and failing with NotConst once the ancestors are exhausted. -/
theorem resolve_var_refines_spec :
    ∀ (scopes : Scopes) (consts : Consts)
      (qm : Item → Except IrErrorKind (Option CMeta))
      (item : Item) (ident : String),
      resolve_var scopes consts qm item ident
        = resolve_var_spec scopes consts qm item ident := by
  intro scopes consts qm item ident
  unfold resolve_var resolve_var_spec
  cases Scopes.get scopes ident with
  | some v => rfl
  | none => simpa using resolve_var_loop_eq_walk consts qm ident item.reverse

theorem lt_length_of_get?_eq_some {α : Type} {xs : List α} {i : Nat} {v : α}
    (h : xs.get? i = some v) : i < xs.length := by
  by_contra hlt
  rw [List.get?_eq_none.mpr (Nat.le_of_not_lt hlt)] at h
  simp at h

theorem modifyTarget_get :
    ∀ (t : IrTarget) (s : Scopes) (f : IrValue → Except IrErrorKind IrValue)
      (s2 : Scopes),
      modifyTarget s t f = .ok s2 →
      ∃ cur v2, get_target s t = .ok cur ∧ f cur = .ok v2
        ∧ get_target s2 t = .ok v2 := by
  intro t
  induction t with
  | name n =>
    intro s f s2 h
    simp only [modifyTarget] at h
    cases hg : Scopes.get s n with
    | none => rw [hg] at h; simp at h
    | some v =>
      rw [hg] at h
      dsimp only at h
      cases hf : f v with
      | error e => rw [hf] at h; simp at h
      | ok v2 =>
        rw [hf] at h
        simp only [Except.ok.injEq] at h
        subst h
        exact ⟨v, v2, by simp [get_target, hg], hf,
          by simp [get_target, Scopes.get_update s n v v2 hg]⟩
  | field t fld ih =>
    intro s f s2 h
    simp only [modifyTarget] at h
    obtain ⟨cur, v2, hget, hF, hget2⟩ := ih s _ s2 h
    cases cur with
    | object o =>
      dsimp only at hF
      cases hlk : assocLookup o fld with
      | none => rw [hlk] at hF; simp at hF
      | some v =>
        rw [hlk] at hF
        dsimp only at hF
        cases hf : f v with
        | error e => rw [hf] at hF; simp at hF
        | ok v3 =>
          rw [hf] at hF
          simp only [Except.ok.injEq] at hF
          refine ⟨v, v3, ?_, hf, ?_⟩
          · simp [get_target, hget, hlk]
          · rw [← hF] at hget2
            simp [get_target, hget2, assocLookup_insert]
    | unit => simp at hF
    | boolean b => simp at hF
    | integer m => simp at hF
    | str st => simp at hF
    | vec xs => simp at hF
    | tuple xs => simp at hF
  | index t i ih =>
    intro s f s2 h
    simp only [modifyTarget] at h
    obtain ⟨cur, v2, hget, hF, hget2⟩ := ih s _ s2 h
    cases cur with
    | vec xs =>
      dsimp only at hF
      cases hlk : xs.get? i with
      | none => rw [hlk] at hF; simp at hF
      | some v =>
        rw [hlk] at hF
        dsimp only at hF
        cases hf : f v with
        | error e => rw [hf] at hF; simp at hF
        | ok v3 =>
          rw [hf] at hF
          simp only [Except.ok.injEq] at hF
          refine ⟨v, v3, ?_, hf, ?_⟩
          · have hlk2 : xs[i]? = some v := by simpa using hlk
            simp [get_target, hget, hlk2]
          · rw [← hF] at hget2
            have hset : (xs.set i v3)[i]? = some v3 := by
              simpa using List.get?_set_self_lt xs i v3 (lt_length_of_get?_eq_some hlk)
            simp [get_target, hget2, hset]
    | tuple xs =>
      dsimp only at hF
      cases hlk : xs.get? i with
      | none => rw [hlk] at hF; simp at hF
      | some v =>
        rw [hlk] at hF
        dsimp only at hF
        cases hf : f v with
        | error e => rw [hf] at hF; simp at hF
        | ok v3 =>
          rw [hf] at hF
          simp only [Except.ok.injEq] at hF
          refine ⟨v, v3, ?_, hf, ?_⟩
          · have hlk2 : xs[i]? = some v := by simpa using hlk
            simp [get_target, hget, hlk2]
          · rw [← hF] at hget2
            have hset : (xs.set i v3)[i]? = some v3 := by
              simpa using List.get?_set_self_lt xs i v3 (lt_length_of_get?_eq_some hlk)
            simp [get_target, hget2, hset]
    | unit => simp at hF
    | boolean b => simp at hF
    | integer m => simp at hF
    | str st => simp at hF
    | object o => simp at hF

/-- Claim C7: target round-trip: for every IrTarget and IrValue, when
set_target succeeds, an immediately following get_target on the same
target returns the written value. -/
theorem set_get_roundtrip :
    ∀ (t : IrTarget) (s : Scopes) (v : IrValue) (s2 : Scopes),
      set_target s t v = .ok s2 → get_target s2 t = .ok v := by
  intro t s v s2 h
  cases t with
  | name n =>
    cases s with
    | nil => simp [set_target] at h
    | cons sc rest =>
      simp only [set_target, Except.ok.injEq] at h
      subst h
      simp [get_target, Scopes.get, assocLookup_insert]
  | field t fld =>
    simp only [set_target] at h
    obtain ⟨cur, v2, hget, hF, hget2⟩ := modifyTarget_get t s _ s2 h
    cases cur with
    | object o =>
      simp only [Except.ok.injEq] at hF
      rw [← hF] at hget2
      simp [get_target, hget2, assocLookup_insert]
    | unit => simp at hF
    | boolean b => simp at hF
    | integer m => simp at hF
    | str st => simp at hF
    | vec xs => simp at hF
    | tuple xs => simp at hF
  | index t i =>
    simp only [set_target] at h
    obtain ⟨cur, v2, hget, hF, hget2⟩ := modifyTarget_get t s _ s2 h
    cases cur with
    | vec xs =>
      by_cases hi : i < xs.length
      · simp only [hi, if_true, ite_true, Except.ok.injEq] at hF
        rw [← hF] at hget2
        have hset : (xs.set i v)[i]? = some v := by
          simpa using List.get?_set_self_lt xs i v hi
        simp [get_target, hget2, hset]
      · simp [hi] at hF
    | tuple xs =>
      by_cases hi : i < xs.length
      · simp only [hi, if_true, ite_true, Except.ok.injEq] at hF
        rw [← hF] at hget2
        have hset : (xs.set i v)[i]? = some v := by
          simpa using List.get?_set_self_lt xs i v hi
        simp [get_target, hget2, hset]
      · simp [hi] at hF
    | unit => simp at hF
    | boolean b => simp at hF
    | integer m => simp at hF
    | str st => simp at hF
    | object o => simp at hF

theorem set_get_roundtrip_witness :
    get_target [[("x", IrValue.object [("a", IrValue.integer 7)])]]
        (.field (.name "x") "a")
      = .ok (IrValue.integer 7) :=
  set_get_roundtrip (.field (.name "x") "a")
    [[("x", IrValue.object [("a", IrValue.integer 1)])]]
    (IrValue.integer 7)
    [[("x", IrValue.object [("a", IrValue.integer 7)])]] rfl
